import Mathlib

/-!
Verification development for the emonë transcriber (`src/transcribe.js`).

The JavaScript source is written in continuation-passing style: the phoneme
lexer and the glyph aligner are each a family of mutually recursive closures,
where a state is a function from the next character (or phoneme) to the next
state, closing over the downstream consumer.  We defunctionalize both machines:
each closure family becomes an inductive state type, and each state's body
becomes one arm of an explicit step function returning the list of emitted
events together with the successor state.  The driver (`makeParser`) feeds the
characters one by one and then the end marker, so running the composed pipeline
equals running the lexer over the whole input to obtain the phoneme sequence
and then folding the aligner over it; this is how `lex`, `alignGo` and `parse`
below are organised.

JavaScript objects with optional fields are modelled by structures whose
optional fields are `Option`s; object spread (`{...term, ...connector, f: v}`)
becomes `mergeConn` (right operand's present fields win) followed by explicit
field updates.  Dynamic truthy keys added by the embellisher
(`{...glyph, [name]: true}`) are modelled by the `strokes` list, to which
`addStroke` appends a name unless it is already present (a JS object keeps an
existing key's position, so re-adding an existing key is the identity).
Numbers are `Int`.
-/

namespace Emone

/-- A phoneme event emitted by the lexer, mirroring the tagged objects
`{type: 'consonant'|'vowel'|'diphthong'|'space'|'newline'|'error', ...}`. -/
inductive Phoneme where
  | consonant (c : String)
  | vowel (v : Char)
  | diphthong (first second : Char)
  | space
  | newline
  | error (msg : String)
  deriving Repr, DecidableEq

/-- A grid slot / glyph object.  Slots produced by the aligner have
`strokes = []`; the embellisher adds resolved stroke names there.  Fields the
JavaScript objects may lack are `Option`s (or default to `[]`). -/
structure Glyph where
  x : Int
  y : Int
  empty : Bool
  center : Option String := none
  north : Option Char := none
  south : Option Char := none
  east : Option Char := none
  west : Option Char := none
  errors : List String := []
  strokes : List String := []
  deriving Repr, DecidableEq

/-- A partial slot ("connector") as spread into a term by the aligner.
Connectors in the source only ever mention `empty`, `center` and the four
compass fields, never `x`, `y` or `errors`. -/
structure Conn where
  empty : Option Bool := none
  center : Option String := none
  north : Option Char := none
  south : Option Char := none
  east : Option Char := none
  west : Option Char := none
  deriving Repr, DecidableEq

/-- Object spread `{...g, ...c}`: a field of `c` that is present overrides the
corresponding field of `g`. -/
def mergeConn (g : Glyph) (c : Conn) : Glyph :=
  { g with
    empty := c.empty.getD g.empty
    center := match c.center with | some v => some v | none => g.center
    north := match c.north with | some v => some v | none => g.north
    south := match c.south with | some v => some v | none => g.south
    east := match c.east with | some v => some v | none => g.east
    west := match c.west with | some v => some v | none => g.west }

/-- `appendError` from the source: `{...term, errors: [...(term.errors || []), error]}`. -/
def appendError (term : Glyph) (e : String) : Glyph :=
  { term with errors := term.errors ++ [e] }

/-! ## Phoneme lexer

States of the character machine.  Besides the four named states of the source
(`favorConsonant`, `favorVowel`, `maybeDiphthong`, `space`) there is one state
per pending-lookahead closure (after `q`, `g`/`k`, `c`, `n`, `b`, `p`, `t`,
`d`, `s`, and `sc`). -/

inductive LexState where
  | favorConsonant
  | favorVowel
  | maybeDiphthong (first : Char)
  | space
  | qLook
  | gkLook (first : Char)
  | cLook
  | nLook
  | bLook
  | pLook
  | tLook
  | dLook
  | sLook
  | scLook
  deriving Repr, DecidableEq

open LexState in
/-- The `favorConsonant` closure applied to a character.  The `'x'` arm inlines
`favorConsonant(emit)('k')('s')`: feeding `'k'` yields the g/k lookahead
closure, and feeding `'s'` to it emits consonant `k` and re-dispatches `'s'`
into `favorVowel`, leaving the machine in the `s` lookahead state. -/
def fcChar (c : Char) : List Phoneme × LexState :=
  match c with
  | '\n' => ([.newline], .space)
  | '\r' => ([.newline], .space)
  | ' ' => ([.space], .space)
  | 'x' => ([.consonant "k"], .sLook)
  | 'q' => ([], .qLook)
  | 'w' => ([.consonant "w"], .favorVowel)
  | 'y' => ([.consonant "y"], .favorVowel)
  | 'e' => ([], .maybeDiphthong 'e')
  | 'i' => ([], .maybeDiphthong 'i')
  | 'a' => ([], .maybeDiphthong 'a')
  | 'o' => ([], .maybeDiphthong 'o')
  | 'u' => ([], .maybeDiphthong 'u')
  | 'r' => ([.consonant "r"], .favorVowel)
  | 'l' => ([.consonant "l"], .favorVowel)
  | 'm' => ([.consonant "m"], .favorVowel)
  | 'v' => ([.consonant "v"], .favorVowel)
  | 'f' => ([.consonant "f"], .favorVowel)
  | 'j' => ([.consonant "j"], .favorVowel)
  | 'z' => ([.consonant "z"], .favorVowel)
  | 'g' => ([], .gkLook 'g')
  | 'k' => ([], .gkLook 'k')
  | 'c' => ([], .cLook)
  | 'n' => ([], .nLook)
  | 'b' => ([], .bLook)
  | 'p' => ([], .pLook)
  | 't' => ([], .tLook)
  | 'd' => ([], .dLook)
  | 's' => ([], .sLook)
  | _ => ([.error ("unexpected " ++ c.toString)], .favorVowel)

/-- The `favorVowel` closure applied to a character: `w` and `y` are routed to
`maybeDiphthong`, everything else falls through to `favorConsonant`. -/
def fvChar (c : Char) : List Phoneme × LexState :=
  if c = 'w' then ([], .maybeDiphthong 'w')
  else if c = 'y' then ([], .maybeDiphthong 'y')
  else fcChar c

/-- The `maybeDiphthong(emit, first)` closure applied to a character. -/
def mdChar (first c : Char) : List Phoneme × LexState :=
  if c = ' ' then ([.vowel first, .space], .space)
  else if c = 'e' ∨ c = 'i' ∨ c = 'y' ∨ c = 'a' ∨ c = 'o' ∨ c = 'u' ∨ c = 'w' then
    ([.diphthong first c], .favorConsonant)
  else
    let r := fcChar c
    (.vowel first :: r.1, r.2)

/-- The lookahead closure after `q`: consonant `k` is emitted and the machine
moves to `maybeDiphthong 'w'` (the `'w'` fed by `favorConsonant(emit)('k')('w')`
lands in `favorVowel`, which treats it as a vowel); a `u`/`w` lookahead is
consumed silently, any other character is re-dispatched. -/
def qLookChar (c : Char) : List Phoneme × LexState :=
  if c = 'u' ∨ c = 'w' then ([.consonant "k"], .maybeDiphthong 'w')
  else
    let r := mdChar 'w' c
    (.consonant "k" :: r.1, r.2)

/-- The lookahead closure after `g` or `k`. -/
def gkLookChar (first c : Char) : List Phoneme × LexState :=
  if c = 'h' then ([.consonant (first.toString ++ "h")], .favorVowel)
  else
    let r := fvChar c
    (.consonant first.toString :: r.1, r.2)

/-- The lookahead closure after `c` (a plain `c` becomes consonant `k`). -/
def cLookChar (c : Char) : List Phoneme × LexState :=
  if c = 'h' then ([.consonant "ch"], .favorVowel)
  else
    let r := fvChar c
    (.consonant "k" :: r.1, r.2)

/-- The lookahead closure after `n`. -/
def nLookChar (c : Char) : List Phoneme × LexState :=
  if c = 'g' then ([.consonant "ng"], .favorVowel)
  else
    let r := fvChar c
    (.consonant "n" :: r.1, r.2)

/-- The lookahead closure after `b` (`bh` becomes consonant `v`). -/
def bLookChar (c : Char) : List Phoneme × LexState :=
  if c = 'h' then ([.consonant "v"], .favorVowel)
  else
    let r := fvChar c
    (.consonant "b" :: r.1, r.2)

/-- The lookahead closure after `p` (`ph` becomes consonant `f`). -/
def pLookChar (c : Char) : List Phoneme × LexState :=
  if c = 'h' then ([.consonant "f"], .favorVowel)
  else
    let r := fvChar c
    (.consonant "p" :: r.1, r.2)

/-- The lookahead closure after `t` (`th`, `ts` are digraphs). -/
def tLookChar (c : Char) : List Phoneme × LexState :=
  if c = 'h' ∨ c = 's' then ([.consonant ("t" ++ c.toString)], .favorVowel)
  else
    let r := fvChar c
    (.consonant "t" :: r.1, r.2)

/-- The lookahead closure after `d` (`dh`, `dj`, `dz` are digraphs). -/
def dLookChar (c : Char) : List Phoneme × LexState :=
  if c = 'h' ∨ c = 'j' ∨ c = 'z' then ([.consonant ("d" ++ c.toString)], .favorVowel)
  else
    let r := fvChar c
    (.consonant "d" :: r.1, r.2)

/-- The inner lookahead closure after `sc` (trigraph `sch` becomes `sh`,
otherwise `s`, `k` are emitted and the third character is re-dispatched). -/
def scLookChar (c : Char) : List Phoneme × LexState :=
  if c = 'h' then ([.consonant "sh"], .favorVowel)
  else
    let r := fvChar c
    (.consonant "s" :: .consonant "k" :: r.1, r.2)

/-- The lookahead closure after `s`. -/
def sLookChar (c : Char) : List Phoneme × LexState :=
  if c = 'c' then ([], .scLook)
  else
    let r := fvChar c
    (.consonant "s" :: r.1, r.2)

/-- The `space` state applied to a character: whitespace is absorbed. -/
def spaceChar (c : Char) : List Phoneme × LexState :=
  if c = ' ' ∨ c = '\n' ∨ c = '\r' ∨ c = '\t' then ([], .space)
  else fcChar c

/-- One step of the character machine on a (non-end) character. -/
def lexStepChar : LexState → Char → List Phoneme × LexState
  | .favorConsonant, c => fcChar c
  | .favorVowel, c => fvChar c
  | .maybeDiphthong f, c => mdChar f c
  | .space, c => spaceChar c
  | .qLook, c => qLookChar c
  | .gkLook f, c => gkLookChar f c
  | .cLook, c => cLookChar c
  | .nLook, c => nLookChar c
  | .bLook, c => bLookChar c
  | .pLook, c => pLookChar c
  | .tLook, c => tLookChar c
  | .dLook, c => dLookChar c
  | .sLook, c => sLookChar c
  | .scLook, c => scLookChar c

/-- Phonemes emitted when the end marker (`null`) reaches each state (before
the terminal `null` itself is forwarded to the aligner). -/
def lexEnd : LexState → List Phoneme
  | .favorConsonant => []
  | .favorVowel => []
  | .maybeDiphthong f => [.vowel f]
  | .space => []
  | .qLook => [.consonant "k", .vowel 'w']
  | .gkLook f => [.consonant f.toString]
  | .cLook => [.consonant "k"]
  | .nLook => [.consonant "n"]
  | .bLook => [.consonant "b"]
  | .pLook => [.consonant "p"]
  | .tLook => [.consonant "t"]
  | .dLook => [.consonant "d"]
  | .sLook => [.consonant "s"]
  | .scLook => [.consonant "s", .consonant "k"]

/-- Run the character machine from a given state over the remaining input and
the end marker, collecting all emitted phonemes. -/
def lexGo : LexState → List Char → List Phoneme
  | st, [] => lexEnd st
  | st, c :: cs => (lexStepChar st c).1 ++ lexGo (lexStepChar st c).2 cs

/-- The phoneme sequence the lexer hands to the aligner for a given input. -/
def lex (text : List Char) : List Phoneme := lexGo .favorConsonant text

/-! ## Glyph aligner -/

/-- States of the aligner: the five closure families of the source, each
carrying the in-progress `term` slot and (except `beforeHigh`) the two pending
connector fragments. -/
inductive AlignState where
  | beforeHigh (term : Glyph)
  | high (term : Glyph) (vowelConnector consonantConnector : Conn)
  | afterHigh (term : Glyph) (firstVowelConnector secondVowelConnector : Conn)
  | low (term : Glyph) (vowelConnector consonantConnector : Conn)
  | afterLow (term : Glyph) (firstVowelConnector secondVowelConnector : Conn)
  deriving Repr, DecidableEq

/-- The in-progress slot of an aligner state. -/
def AlignState.term : AlignState → Glyph
  | .beforeHigh t => t
  | .high t _ _ => t
  | .afterHigh t _ _ => t
  | .low t _ _ => t
  | .afterLow t _ _ => t

/-- The five state families, forgetting the carried data. -/
inductive AKind where
  | beforeHigh
  | high
  | afterHigh
  | low
  | afterLow
  deriving Repr, DecidableEq

/-- The family of an aligner state. -/
def AlignState.kind : AlignState → AKind
  | .beforeHigh _ => .beforeHigh
  | .high _ _ _ => .high
  | .afterHigh _ _ _ => .afterHigh
  | .low _ _ _ => .low
  | .afterLow _ _ _ => .afterLow

/-- Whether a state family sits on the low row of the zig-zag. -/
def AKind.isLow : AKind → Bool
  | .low => true
  | .afterLow => true
  | _ => false

/-- The connector `{empty: false, center: 'm'}`. -/
def connCenterM : Conn := { empty := some false, center := some "m" }

/-- The connector `{empty: false, south: 'e'}`. -/
def connSouthE : Conn := { empty := some false, south := some 'e' }

/-- The connector `{empty: false, north: 'e'}`. -/
def connNorthE : Conn := { empty := some false, north := some 'e' }

/-- The connector `{empty: false, east: 'e'}`. -/
def connEastE : Conn := { empty := some false, east := some 'e' }

/-- The connector `{empty: false, west: 'e'}`. -/
def connWestE : Conn := { empty := some false, west := some 'e' }

/-- One step of the aligner on a phoneme: the slots it emits downstream and
the successor state, transcribed arm by arm from `beforeHigh`, `high`,
`afterHigh`, `low` and `afterLow` in the source. -/
def stepAlign : AlignState → Phoneme → List Glyph × AlignState
  | .beforeHigh term, p =>
    match p with
    | .vowel v =>
      ([], .high { term with empty := false, north := some v } {} connCenterM)
    | .diphthong f s =>
      ([{ term with empty := false, south := some f }],
        .low { x := term.x, y := term.y + 1, empty := false, north := some s } {} connCenterM)
    | .consonant c =>
      ([], .afterHigh { term with empty := false, center := some c } connSouthE connNorthE)
    | .space => ([], .beforeHigh term)
    | .newline => ([term], .beforeHigh { x := 0, y := term.y + 2, empty := true })
    | .error e => ([], .beforeHigh (appendError term e))
  | .high term vc cc, p =>
    match p with
    | .vowel v =>
      ([{ mergeConn term cc with empty := false, south := some v }],
        .low { x := term.x, y := term.y + 1, empty := true }
          { empty := some false, north := some v } connCenterM)
    | .diphthong f s =>
      ([{ mergeConn term cc with empty := false, south := some f }],
        .low { x := term.x, y := term.y + 1, empty := false, north := some s } {} connCenterM)
    | .consonant c =>
      ([], .afterHigh { mergeConn term vc with empty := false, center := some c }
        connSouthE connNorthE)
    | .space =>
      if term.west.isSome || term.north.isSome then
        ([{ term with empty := false, center := some "m" }],
          .beforeHigh { x := term.x + 1, y := term.y, empty := true })
      else
        ([], .beforeHigh term)
    | .newline =>
      if term.west.isSome then
        ([{ term with empty := false, center := some "m" }],
          .beforeHigh { x := 0, y := term.y + 2, empty := true })
      else
        ([term], .beforeHigh { x := 0, y := term.y + 2, empty := true })
    | .error e => ([], .high (appendError term e) vc cc)
  | .afterHigh term fvc svc, p =>
    match p with
    | .vowel v =>
      ([{ term with empty := false, south := some v }],
        .low { x := term.x, y := term.y + 1, empty := true }
          { empty := some false, north := some v } connCenterM)
    | .diphthong f s =>
      ([{ term with empty := false, south := some f }],
        .low { x := term.x, y := term.y + 1, empty := false, north := some s } {} connCenterM)
    | .consonant c =>
      ([mergeConn term fvc],
        .afterLow
          { mergeConn { x := term.x, y := term.y + 1, empty := true } svc with
              empty := false, center := some c }
          connEastE connWestE)
    | .space => ([term], .beforeHigh { x := term.x + 1, y := term.y, empty := true })
    | .newline => ([term], .beforeHigh { x := 0, y := term.y + 2, empty := true })
    | .error e => ([], .afterHigh (appendError term e) fvc svc)
  | .low term vc cc, p =>
    match p with
    | .vowel v =>
      ([{ mergeConn term cc with empty := false, east := some v }],
        .high { x := term.x + 1, y := term.y - 1, empty := true }
          { empty := some false, west := some v } connCenterM)
    | .diphthong f s =>
      ([{ mergeConn term cc with empty := false, east := some f }],
        .high { x := term.x + 1, y := term.y - 1, empty := false, west := some s } {} connCenterM)
    | .consonant c =>
      ([], .afterLow { mergeConn term vc with empty := false, center := some c }
        connEastE connWestE)
    | .space => ([], .afterLow term {} {})
    | .newline => ([term], .beforeHigh { x := 0, y := term.y + 1, empty := true })
    | .error e => ([], .low (appendError term e) vc cc)
  | .afterLow term fvc svc, p =>
    match p with
    | .vowel v =>
      ([{ term with empty := false, east := some v }],
        .high { x := term.x + 1, y := term.y - 1, empty := true }
          { empty := some false, west := some v } connCenterM)
    | .diphthong f s =>
      ([{ term with empty := false, east := some f }],
        .high { x := term.x + 1, y := term.y - 1, empty := false, west := some s } {} connCenterM)
    | .consonant c =>
      ([mergeConn term fvc],
        .afterHigh
          { mergeConn { x := term.x + 1, y := term.y - 1, empty := true } svc with
              empty := false, center := some c }
          connSouthE connNorthE)
    | .space => ([term], .high { x := term.x + 1, y := term.y - 1, empty := true } {} {})
    | .newline => ([term], .beforeHigh { x := 0, y := term.y + 1, empty := true })
    | .error e => ([], .afterLow (appendError term e) fvc svc)

/-- The aligner's initial state: `beforeHigh({x: 0, y: 0, empty: true}, emit)`. -/
def initAlign : AlignState := .beforeHigh { x := 0, y := 0, empty := true }

/-- Run the aligner from a state over a phoneme list; on the end marker every
state emits its in-progress term (each `null` arm is `emit(term)(null)`). -/
def alignGo : AlignState → List Phoneme → List Glyph
  | st, [] => [st.term]
  | st, p :: ps => (stepAlign st p).1 ++ alignGo (stepAlign st p).2 ps

/-- The aligner state reached from the start after consuming a phoneme list. -/
def alignStateAfter (ps : List Phoneme) : AlignState :=
  ps.foldl (fun st p => (stepAlign st p).2) initAlign

/-- `parse` of the source: lexer composed with aligner and collector. -/
def parse (text : List Char) : List Glyph := alignGo initAlign (lex text)

/-! ## Embellisher -/

/-- The `consonantGlyphs` table: stroke names for each consonant symbol, in
object-literal order; a symbol outside the table contributes nothing. -/
def consonantGlyphs : String → List String
  | "l" => ["l"]
  | "r" => ["r"]
  | "w" => ["consonantal-w"]
  | "y" => ["consonantal-y"]
  | "m" => ["labial"]
  | "b" => ["labial", "plosive"]
  | "p" => ["labial", "plosive", "plosive-unvoiced"]
  | "v" => ["labial", "fricative"]
  | "f" => ["labial", "fricative", "fricative-unvoiced"]
  | "n" => ["labial", "dental"]
  | "d" => ["labial", "dental", "plosive"]
  | "t" => ["labial", "dental", "plosive", "plosive-unvoiced"]
  | "dh" => ["labial", "dental", "fricative"]
  | "th" => ["labial", "dental", "fricative", "fricative-unvoiced"]
  | "ng" => ["labial", "palatal"]
  | "g" => ["labial", "palatal", "plosive"]
  | "k" => ["labial", "palatal", "plosive", "plosive-unvoiced"]
  | "gh" => ["labial", "palatal", "fricative"]
  | "kh" => ["labial", "palatal", "fricative", "fricative-unvoiced"]
  | "dz" => ["labial", "dental", "dental-alveolar", "plosive"]
  | "ts" => ["labial", "dental", "dental-alveolar", "plosive", "plosive-unvoiced"]
  | "z" => ["labial", "dental", "dental-alveolar", "fricative"]
  | "s" => ["labial", "dental", "dental-alveolar", "fricative", "fricative-unvoiced"]
  | "dj" => ["labial", "palatal", "palatal-alveolar", "plosive"]
  | "ch" => ["labial", "palatal", "palatal-alveolar", "plosive", "plosive-unvoiced"]
  | "j" => ["labial", "palatal", "palatal-alveolar", "fricative"]
  | "sh" => ["labial", "palatal", "palatal-alveolar", "fricative", "fricative-unvoiced"]
  | _ => []

/-- The `vowelGlyphs` vocabulary of available SVG stroke labels. -/
def vowelGlyphs : List String :=
  ["e-west-outer", "e-west-inner", "e-east-outer-inner", "e-east-outer-outer",
   "e-east-outer", "e-east-inner-outer", "e-east-inner-inner", "e-east-inner",
   "e-south-outer-outer", "e-south-outer", "e-south-inner-inner", "e-south-inner",
   "e-north-outer-outer", "e-north-inner-inner", "e-north-outer", "e-north-inner",
   "i-west-outer", "i-west-inner", "i-east-outer-outer", "i-east-outer-inner",
   "i-east-outer", "i-east-inner-outer", "i-east-inner-inner", "i-east-inner",
   "i-south-outer-outer", "i-south-outer-inner", "i-south-outer", "i-south-inner",
   "i-south-inner-outer", "i-south-inner-inner", "i-north-outer", "i-north-inner",
   "y-west-outer", "y-west-inner", "y-east-outer-outer", "y-east-outer-inner",
   "y-east-outer", "y-east-inner-inner", "y-east-inner-outer", "y-east-inner",
   "y-south-outer-outer", "y-south-outer", "y-south-inner", "y-north-outer-outer",
   "y-north-outer", "y-north-inner",
   "a-west-outer", "a-west-inner", "a-east-outer-outer", "a-east-outer",
   "a-east-inner-inner", "a-east-inner", "a-south-outer-outer", "a-south-outer",
   "a-south-inner", "a-north-outer-outer", "a-north-outer", "a-north-inner",
   "o-west-outer", "o-west-inner", "o-east-outer-outer", "o-east-outer",
   "o-east-inner", "o-south-outer", "o-south-inner", "o-north-outer", "o-north-inner",
   "u-west-outer", "u-west-inner", "u-east-outer-outer", "u-east-outer",
   "u-east-inner-inner", "u-east-inner", "u-south-outer-outer", "u-south-outer",
   "u-south-inner", "u-north-outer-outer", "u-north-outer", "u-north-inner",
   "w-west-outer", "w-west-inner", "w-east-outer-outer", "w-east-outer",
   "w-east-inner", "w-south-outer", "w-south-inner", "w-north-outer", "w-north-inner"]

/-- `{...glyph, [name]: true}`: adding a truthy key; if the key is already
present the object is unchanged (the existing key keeps its position). -/
def addStroke (g : Glyph) (s : String) : Glyph :=
  if g.strokes.contains s then g else { g with strokes := g.strokes ++ [s] }

/-- Spread a list of truthy keys onto a glyph, left to right. -/
def addStrokes (g : Glyph) (l : List String) : Glyph := l.foldl addStroke g

/-- The stroke names contributed by a glyph's center via `consonantGlyphs`
(`consonantGlyphs[glyph.center] || {}`). -/
def centerFeatures (g : Glyph) : List String :=
  match g.center with
  | some c => consonantGlyphs c
  | none => []

/-- `io(glyph).left`: `'outer'` when the glyph carries the `dental` feature. -/
def ioLeft (g : Glyph) : String :=
  if g.strokes.contains "dental" then "outer" else "inner"

/-- `io(glyph).right`: `'outer'` when the glyph carries the `palatal` feature. -/
def ioRight (g : Glyph) : String :=
  if g.strokes.contains "palatal" then "outer" else "inner"

/-- A candidate stroke name `<vowel>-<direction>-<openness>`. -/
def simpleName (v : Char) (dir opn : String) : String :=
  v.toString ++ "-" ++ dir ++ "-" ++ opn

/-- The glyph standing in for `glyphs[i+1] || {}` past the end of the list:
no attachments, no strokes. -/
def emptyGlyph : Glyph := { x := 0, y := 0, empty := true }

/-- Resolution of an `east` attachment against the next slot's `west`:
if both carry the same vowel and the combined name is in the vocabulary, the
combined name is used and the next slot's `west` is deleted. -/
def resolveEastPair (g next : Glyph) (right nextLeft : String) : Glyph × Glyph :=
  match g.east with
  | some v =>
    if next.west == some v && vowelGlyphs.contains (simpleName v "east" right ++ "-" ++ nextLeft)
    then (addStroke g (simpleName v "east" right ++ "-" ++ nextLeft), { next with west := none })
    else (addStroke g (simpleName v "east" right), next)
  | none => (g, next)

/-- Resolution of a `south` attachment against the next slot's `north`,
mirroring `resolveEastPair`. -/
def resolveSouthPair (g next : Glyph) (right nextLeft : String) : Glyph × Glyph :=
  match g.south with
  | some v =>
    if next.north == some v && vowelGlyphs.contains (simpleName v "south" right ++ "-" ++ nextLeft)
    then (addStroke g (simpleName v "south" right ++ "-" ++ nextLeft), { next with north := none })
    else (addStroke g (simpleName v "south" right), next)
  | none => (g, next)

/-- The body of the second `map` of `embelish` for one glyph and its successor:
west and north get simple names using the glyph's own `left` openness, east and
south may merge with the successor.  Returns the resolved glyph and the
(possibly mutated) successor. -/
def resolveDirs (g next : Glyph) : Glyph × Glyph :=
  let left := ioLeft g
  let right := ioRight g
  let nextLeft := ioLeft next
  let g1 := match g.west with
    | some v => addStroke g (simpleName v "west" left)
    | none => g
  let g2 := match g1.north with
    | some v => addStroke g1 (simpleName v "north" left)
    | none => g1
  let p := resolveEastPair g2 next right nextLeft
  resolveSouthPair p.1 p.2 right nextLeft

/-- The left-to-right pass with one-slot lookahead, threading each mutated
successor into the next iteration. -/
def embelishGo (g : Glyph) : List Glyph → List Glyph
  | [] => [(resolveDirs g emptyGlyph).1]
  | g2 :: rest => (resolveDirs g g2).1 :: embelishGo (resolveDirs g g2).2 rest

/-- The second `map` of `embelish` over the whole list. -/
def embelishPass : List Glyph → List Glyph
  | [] => []
  | g :: rest => embelishGo g rest

/-- `embelish`: drop empty slots, expand centers into feature strokes, then
resolve directional attachments left to right. -/
def embelish (gs : List Glyph) : List Glyph :=
  embelishPass ((gs.filter fun g => !g.empty).map fun g => addStrokes g (centerFeatures g))

/-! ## Size calculator and façade -/

/-- A `{x, y}` extent. -/
structure Size where
  x : Int
  y : Int
  deriving Repr, DecidableEq

/-- `measure`: bounding extent of the glyph list, each axis a `reduce` with
initial value 1 taking `Math.max(coordinate + 1, max)`. -/
def measure (glyphs : List Glyph) : Size :=
  { x := glyphs.foldl (fun m g => max (g.x + 1) m) 1
    y := glyphs.foldl (fun m g => max (g.y + 1) m) 1 }

/-- The `{glyphs, size}` model returned to the renderer. -/
structure GlyphModel where
  glyphs : List Glyph
  size : Size
  deriving Repr, DecidableEq

/-- `transcribe`: the full pipeline. -/
def transcribe (text : List Char) : GlyphModel :=
  let glyphs := embelish (parse text)
  { glyphs := glyphs, size := measure glyphs }

end Emone

namespace Emone

/-! ## Helper lemmas: field preservation -/

@[simp] theorem addStroke_x (g : Glyph) (s : String) : (addStroke g s).x = g.x := by
  unfold addStroke; split <;> rfl

@[simp] theorem addStroke_y (g : Glyph) (s : String) : (addStroke g s).y = g.y := by
  unfold addStroke; split <;> rfl

@[simp] theorem addStroke_empty (g : Glyph) (s : String) : (addStroke g s).empty = g.empty := by
  unfold addStroke; split <;> rfl

@[simp] theorem addStroke_center (g : Glyph) (s : String) : (addStroke g s).center = g.center := by
  unfold addStroke; split <;> rfl

@[simp] theorem addStroke_north (g : Glyph) (s : String) : (addStroke g s).north = g.north := by
  unfold addStroke; split <;> rfl

@[simp] theorem addStroke_south (g : Glyph) (s : String) : (addStroke g s).south = g.south := by
  unfold addStroke; split <;> rfl

@[simp] theorem addStroke_east (g : Glyph) (s : String) : (addStroke g s).east = g.east := by
  unfold addStroke; split <;> rfl

@[simp] theorem addStroke_west (g : Glyph) (s : String) : (addStroke g s).west = g.west := by
  unfold addStroke; split <;> rfl

@[simp] theorem addStroke_errors (g : Glyph) (s : String) : (addStroke g s).errors = g.errors := by
  unfold addStroke; split <;> rfl

@[simp] theorem addStrokes_x (l : List String) : ∀ g : Glyph, (addStrokes g l).x = g.x := by
  induction l with
  | nil => intro g; rfl
  | cons s l ih =>
    intro g
    show (addStrokes (addStroke g s) l).x = g.x
    rw [ih, addStroke_x]

@[simp] theorem addStrokes_y (l : List String) : ∀ g : Glyph, (addStrokes g l).y = g.y := by
  induction l with
  | nil => intro g; rfl
  | cons s l ih =>
    intro g
    show (addStrokes (addStroke g s) l).y = g.y
    rw [ih, addStroke_y]

@[simp] theorem addStrokes_empty (l : List String) : ∀ g : Glyph,
    (addStrokes g l).empty = g.empty := by
  induction l with
  | nil => intro g; rfl
  | cons s l ih =>
    intro g
    show (addStrokes (addStroke g s) l).empty = g.empty
    rw [ih, addStroke_empty]

@[simp] theorem mergeConn_x (g : Glyph) (c : Conn) : (mergeConn g c).x = g.x := rfl

@[simp] theorem mergeConn_y (g : Glyph) (c : Conn) : (mergeConn g c).y = g.y := rfl

@[simp] theorem resolveEastPair_fst_x (g n : Glyph) (r nl : String) :
    (resolveEastPair g n r nl).1.x = g.x := by
  unfold resolveEastPair; split <;> (try split) <;> simp

@[simp] theorem resolveEastPair_fst_y (g n : Glyph) (r nl : String) :
    (resolveEastPair g n r nl).1.y = g.y := by
  unfold resolveEastPair; split <;> (try split) <;> simp

@[simp] theorem resolveEastPair_fst_empty (g n : Glyph) (r nl : String) :
    (resolveEastPair g n r nl).1.empty = g.empty := by
  unfold resolveEastPair; split <;> (try split) <;> simp

@[simp] theorem resolveEastPair_snd_x (g n : Glyph) (r nl : String) :
    (resolveEastPair g n r nl).2.x = n.x := by
  unfold resolveEastPair; split <;> (try split) <;> simp

@[simp] theorem resolveEastPair_snd_y (g n : Glyph) (r nl : String) :
    (resolveEastPair g n r nl).2.y = n.y := by
  unfold resolveEastPair; split <;> (try split) <;> simp

@[simp] theorem resolveEastPair_snd_empty (g n : Glyph) (r nl : String) :
    (resolveEastPair g n r nl).2.empty = n.empty := by
  unfold resolveEastPair; split <;> (try split) <;> simp

@[simp] theorem resolveSouthPair_fst_x (g n : Glyph) (r nl : String) :
    (resolveSouthPair g n r nl).1.x = g.x := by
  unfold resolveSouthPair; split <;> (try split) <;> simp

@[simp] theorem resolveSouthPair_fst_y (g n : Glyph) (r nl : String) :
    (resolveSouthPair g n r nl).1.y = g.y := by
  unfold resolveSouthPair; split <;> (try split) <;> simp

@[simp] theorem resolveSouthPair_fst_empty (g n : Glyph) (r nl : String) :
    (resolveSouthPair g n r nl).1.empty = g.empty := by
  unfold resolveSouthPair; split <;> (try split) <;> simp

@[simp] theorem resolveSouthPair_snd_x (g n : Glyph) (r nl : String) :
    (resolveSouthPair g n r nl).2.x = n.x := by
  unfold resolveSouthPair; split <;> (try split) <;> simp

@[simp] theorem resolveSouthPair_snd_y (g n : Glyph) (r nl : String) :
    (resolveSouthPair g n r nl).2.y = n.y := by
  unfold resolveSouthPair; split <;> (try split) <;> simp

@[simp] theorem resolveSouthPair_snd_empty (g n : Glyph) (r nl : String) :
    (resolveSouthPair g n r nl).2.empty = n.empty := by
  unfold resolveSouthPair; split <;> (try split) <;> simp

@[simp] theorem resolveDirs_fst_x (g n : Glyph) : (resolveDirs g n).1.x = g.x := by
  unfold resolveDirs; rcases g.west with _ | v <;> rcases hn : g.north with _ | w <;>
    simp [hn]

@[simp] theorem resolveDirs_fst_y (g n : Glyph) : (resolveDirs g n).1.y = g.y := by
  unfold resolveDirs; rcases g.west with _ | v <;> rcases hn : g.north with _ | w <;>
    simp [hn]

@[simp] theorem resolveDirs_fst_empty (g n : Glyph) : (resolveDirs g n).1.empty = g.empty := by
  unfold resolveDirs; rcases g.west with _ | v <;> rcases hn : g.north with _ | w <;>
    simp [hn]

@[simp] theorem resolveDirs_snd_x (g n : Glyph) : (resolveDirs g n).2.x = n.x := by
  unfold resolveDirs; rcases g.west with _ | v <;> rcases hn : g.north with _ | w <;>
    simp [hn]

@[simp] theorem resolveDirs_snd_y (g n : Glyph) : (resolveDirs g n).2.y = n.y := by
  unfold resolveDirs; rcases g.west with _ | v <;> rcases hn : g.north with _ | w <;>
    simp [hn]

@[simp] theorem resolveDirs_snd_empty (g n : Glyph) : (resolveDirs g n).2.empty = n.empty := by
  unfold resolveDirs; rcases g.west with _ | v <;> rcases hn : g.north with _ | w <;>
    simp [hn]

end Emone

namespace Emone

/-! ## The aligner's coordinate invariant -/

/-- Invariant carried by every reachable aligner state: the open term sits at
non-negative coordinates, and in the two Low states its row is at least 1
(Low is always entered one row below a non-negative high row, so the
`y - 1` of the Low transitions cannot go negative). -/
def AInvHolds (st : AlignState) : Prop :=
  0 ≤ st.term.x ∧ 0 ≤ st.term.y ∧ (st.kind.isLow = true → 1 ≤ st.term.y)

theorem stepAlign_inv (st : AlignState) (p : Phoneme) (h : AInvHolds st) :
    (∀ g ∈ (stepAlign st p).1, 0 ≤ g.x ∧ 0 ≤ g.y) ∧ AInvHolds (stepAlign st p).2 := by
  obtain ⟨hx, hy, hl⟩ := h
  cases st <;> cases p <;>
    simp_all [stepAlign, AInvHolds, AlignState.term, AlignState.kind, AKind.isLow,
      mergeConn, appendError] <;>
    (try split) <;>
    first
      | omega
      | (simp_all [AlignState.term, AlignState.kind, AKind.isLow]; omega)
      | simp_all [AlignState.term, AlignState.kind, AKind.isLow]

theorem alignGo_inv (ps : List Phoneme) : ∀ st : AlignState, AInvHolds st →
    ∀ g ∈ alignGo st ps, 0 ≤ g.x ∧ 0 ≤ g.y := by
  induction ps with
  | nil =>
    intro st h g hg
    simp [alignGo] at hg
    subst hg
    exact ⟨h.1, h.2.1⟩
  | cons p ps ih =>
    intro st h g hg
    simp only [alignGo, List.mem_append] at hg
    rcases hg with hg | hg
    · exact (stepAlign_inv st p h).1 g hg
    · exact ih _ (stepAlign_inv st p h).2 g hg

/-! ## The embellisher preserves cells -/

theorem embelishGo_cells (l : List Glyph) : ∀ g : Glyph, ∀ g' ∈ embelishGo g l,
    (g'.x = g.x ∧ g'.y = g.y ∧ g'.empty = g.empty) ∨
    ∃ h ∈ l, g'.x = h.x ∧ g'.y = h.y ∧ g'.empty = h.empty := by
  induction l with
  | nil =>
    intro g g' hg'
    simp [embelishGo] at hg'
    subst hg'
    left
    simp
  | cons g2 rest ih =>
    intro g g' hg'
    simp only [embelishGo, List.mem_cons] at hg'
    rcases hg' with rfl | hg'
    · left; simp
    · rcases ih _ g' hg' with h | ⟨h, hh, hc⟩
      · right
        refine ⟨g2, by simp, ?_⟩
        simpa using h
      · right
        exact ⟨h, by simp [hh], hc⟩

theorem embelishPass_cells (l : List Glyph) : ∀ g' ∈ embelishPass l,
    ∃ g ∈ l, g'.x = g.x ∧ g'.y = g.y ∧ g'.empty = g.empty := by
  cases l with
  | nil => simp [embelishPass]
  | cons g rest =>
    intro g' hg'
    simp only [embelishPass] at hg'
    rcases embelishGo_cells rest g g' hg' with h | ⟨h, hh, hc⟩
    · exact ⟨g, by simp, h⟩
    · exact ⟨h, by simp [hh], hc⟩

theorem embelish_cells (gs : List Glyph) : ∀ g' ∈ embelish gs,
    ∃ g ∈ gs, g'.x = g.x ∧ g'.y = g.y ∧ g'.empty = false := by
  intro g' hg'
  unfold embelish at hg'
  obtain ⟨h, hh, hx, hy, he⟩ := embelishPass_cells _ g' hg'
  obtain ⟨g0, hg0, rfl⟩ := List.mem_map.mp hh
  have hmem := List.mem_filter.mp hg0
  refine ⟨g0, hmem.1, by simpa using hx, by simpa using hy, ?_⟩
  have h2 := hmem.2
  simp only [Bool.not_eq_true'] at h2
  rw [he]
  simpa using h2

end Emone

namespace Emone

/-! ## Fold lemmas for the size calculator -/

theorem foldl_max_le_acc (f : Glyph → Int) (l : List Glyph) : ∀ a : Int,
    a ≤ l.foldl (fun m g => max (f g + 1) m) a := by
  induction l with
  | nil => intro a; simp
  | cons g l ih =>
    intro a
    exact le_trans (le_max_right (f g + 1) a) (ih (max (f g + 1) a))

theorem foldl_max_mem (f : Glyph → Int) (l : List Glyph) : ∀ a : Int, ∀ g ∈ l,
    f g + 1 ≤ l.foldl (fun m g => max (f g + 1) m) a := by
  induction l with
  | nil => simp
  | cons g0 l ih =>
    intro a g hg
    rcases List.mem_cons.mp hg with rfl | hg
    · exact le_trans (le_max_left (f g + 1) a) (foldl_max_le_acc f l _)
    · exact ih _ g hg

theorem foldl_max_acc_or_mem (f : Glyph → Int) (l : List Glyph) : ∀ a : Int,
    l.foldl (fun m g => max (f g + 1) m) a = a ∨
    ∃ g ∈ l, l.foldl (fun m g => max (f g + 1) m) a = f g + 1 := by
  induction l with
  | nil => intro a; left; rfl
  | cons g0 l ih =>
    intro a
    have hstep : (g0 :: l).foldl (fun m g => max (f g + 1) m) a
        = l.foldl (fun m g => max (f g + 1) m) (max (f g0 + 1) a) := rfl
    rcases ih (max (f g0 + 1) a) with h | ⟨g, hg, h⟩
    · rcases le_total (f g0 + 1) a with hle | hle
      · left
        rw [hstep, h]
        exact max_eq_right hle
      · right
        refine ⟨g0, by simp, ?_⟩
        rw [hstep, h]
        exact max_eq_left hle
    · right
      exact ⟨g, by simp [hg], by rw [hstep, h]⟩

/-- C1: for every input, the GlyphModel returned by `transcribe` has
`size.x` equal to the maximum of `x + 1` over all returned (all non-empty)
glyphs with minimum 1, and likewise `size.y`; the `size` field is exactly
`measure` of the `glyphs` field. -/
theorem transcribe_size_invariant (text : List Char) :
    ((transcribe text).glyphs.all fun g => !g.empty) = true ∧
    1 ≤ (transcribe text).size.x ∧ 1 ≤ (transcribe text).size.y ∧
    (∀ g ∈ (transcribe text).glyphs,
      g.x + 1 ≤ (transcribe text).size.x ∧ g.y + 1 ≤ (transcribe text).size.y) ∧
    ((transcribe text).size.x = 1 ∨
      ∃ g ∈ (transcribe text).glyphs, (transcribe text).size.x = g.x + 1) ∧
    ((transcribe text).size.y = 1 ∨
      ∃ g ∈ (transcribe text).glyphs, (transcribe text).size.y = g.y + 1) ∧
    (transcribe text).size = measure (transcribe text).glyphs := by
  have hglyphs : (transcribe text).glyphs = embelish (parse text) := rfl
  have hsx : (transcribe text).size.x
      = (transcribe text).glyphs.foldl (fun m g => max (g.x + 1) m) 1 := rfl
  have hsy : (transcribe text).size.y
      = (transcribe text).glyphs.foldl (fun m g => max (g.y + 1) m) 1 := rfl
  refine ⟨?_, ?_, ?_, ?_, ?_, ?_, rfl⟩
  · rw [List.all_eq_true]
    intro g hg
    rw [hglyphs] at hg
    obtain ⟨_, _, _, _, he⟩ := embelish_cells _ g hg
    simp [he]
  · rw [hsx]; exact foldl_max_le_acc Glyph.x _ 1
  · rw [hsy]; exact foldl_max_le_acc Glyph.y _ 1
  · intro g hg
    exact ⟨hsx ▸ foldl_max_mem Glyph.x _ 1 g hg, hsy ▸ foldl_max_mem Glyph.y _ 1 g hg⟩
  · rw [hsx]; exact foldl_max_acc_or_mem Glyph.x _ 1
  · rw [hsy]; exact foldl_max_acc_or_mem Glyph.y _ 1

theorem initAlign_inv : AInvHolds initAlign :=
  ⟨le_refl 0, le_refl 0, fun h => by simp [initAlign, AlignState.kind, AKind.isLow] at h⟩

/-- C10: every glyph of every GlyphModel produced by `transcribe` has
non-negative coordinates; the Low states' `y - 1` transitions never drive a
row below zero because the aligner's reachable Low states always have
`1 ≤ y` (invariant `AInvHolds`). -/
theorem transcribe_coords_nonneg (text : List Char) (g : Glyph)
    (hg : g ∈ (transcribe text).glyphs) : 0 ≤ g.x ∧ 0 ≤ g.y := by
  have hglyphs : (transcribe text).glyphs = embelish (parse text) := rfl
  rw [hglyphs] at hg
  obtain ⟨g0, hg0, hx, hy, _⟩ := embelish_cells _ g hg
  have h0 := alignGo_inv (lex text) initAlign initAlign_inv g0 hg0
  exact ⟨hx ▸ h0.1, hy ▸ h0.2⟩

/-- Witness for C10 at the concrete input `"m"`. -/
theorem transcribe_coords_nonneg_witness :
    0 ≤ (Glyph.mk 0 0 false (some "m") none none none none [] ["labial"]).x ∧
    0 ≤ (Glyph.mk 0 0 false (some "m") none none none none [] ["labial"]).y :=
  transcribe_coords_nonneg ['m'] _ (by decide)

end Emone

namespace Emone

/-- C2 counterexample: for the single-vowel input `"a"` the model contains
exactly one glyph, whose center is absent and whose resolved stroke set is
`["a-north-inner"]`, not the feature set `["labial"]` of the placeholder
consonant `m`; no glyph carries an `m` hub. -/
theorem single_vowel_no_placeholder_hub :
    ((transcribe ['a']).glyphs.map fun g => g.center) = [none] ∧
    ((transcribe ['a']).glyphs.map fun g => g.strokes) = [["a-north-inner"]] ∧
    consonantGlyphs "m" = ["labial"] := by decide

/-- C2 amended: a bare single vowel at end of input yields exactly one glyph
carrying the vowel as its north attachment and no center (the pending
placeholder-m connector is dropped at end of input); the placeholder hub does
appear when the vowel is followed by a space; and a lone `y` is lexed as a
consonant. -/
theorem single_vowel_amended :
    ((transcribe ['a']).glyphs.map fun g => (g.north, g.center)) = [(some 'a', none)] ∧
    ((transcribe ['e']).glyphs.map fun g => (g.north, g.center)) = [(some 'e', none)] ∧
    ((transcribe ['i']).glyphs.map fun g => (g.north, g.center)) = [(some 'i', none)] ∧
    ((transcribe ['o']).glyphs.map fun g => (g.north, g.center)) = [(some 'o', none)] ∧
    ((transcribe ['u']).glyphs.map fun g => (g.north, g.center)) = [(some 'u', none)] ∧
    ((transcribe ['y']).glyphs.map fun g => (g.center, g.north)) = [(some "y", none)] ∧
    ((transcribe ['a', ' ']).glyphs.map fun g => (g.center, g.north)) = [(some "m", some 'a')] := by
  decide

/-- C3: in every aligner state an error phoneme emits no slot, stays in the
same state family, and appends its message to the open term's error list,
leaving it non-empty; and concretely, the model for `"a1b"` is complete and
its single glyph carries the error list `["unexpected 1"]`. -/
theorem error_phoneme_annotates_open_slot (st : AlignState) (msg : String) :
    (stepAlign st (.error msg)).1 = [] ∧
    (stepAlign st (.error msg)).2.kind = st.kind ∧
    (stepAlign st (.error msg)).2.term.errors = st.term.errors ++ [msg] ∧
    0 < (stepAlign st (.error msg)).2.term.errors.length ∧
    ((transcribe ['a', '1', 'b']).glyphs.map fun g => g.errors) = [["unexpected 1"]] := by
  refine ⟨?_, ?_, ?_, ?_, by decide⟩ <;>
    cases st <;>
    simp [stepAlign, appendError, AlignState.kind, AlignState.term]

/-- C4 counterexample: the input `"qu"` does not produce the consonant
phonemes `k` then `w`; the second phoneme is the vowel `w`. -/
theorem qu_not_two_consonants :
    lex ['q', 'u'] = [.consonant "k", .vowel 'w'] ∧
    (decide (lex ['q', 'u'] = [Phoneme.consonant "k", Phoneme.consonant "w"])) = false := by
  decide

/-- C4 amended: digraphs take precedence over single consonants — `"ph"`
yields the single consonant `f`, `"sch"` yields the single consonant `sh` —
and `"qu"` yields consonant `k` followed by the vowel `w`, the `u` being
consumed without producing a phoneme. -/
theorem digraph_precedence_amended :
    lex ['p', 'h'] = [.consonant "f"] ∧
    lex ['s', 'c', 'h'] = [.consonant "sh"] ∧
    lex ['q', 'u'] = [.consonant "k", .vowel 'w'] := by decide

/-- C5: after any consonant the aligner always sits in `afterHigh` or
`afterLow` with the placeholder-e connectors armed, so a second consecutive
consonant emits the first hub with an `e` on its gap-facing side (south on a
high hub, east on a low hub) and opens the second hub with an `e` on the
opposite side (north, resp. west); concretely, `"mn"` yields south `e` on the
first hub and north `e` on the second. -/
theorem consecutive_consonants_placeholder_e (st : AlignState) (c1 c2 : String) :
    ((∃ t, (stepAlign st (.consonant c1)).2 = .afterHigh t connSouthE connNorthE ∧
      ((stepAlign (.afterHigh t connSouthE connNorthE) (.consonant c2)).1.map fun g => g.south)
        = [some 'e'] ∧
      (stepAlign (.afterHigh t connSouthE connNorthE) (.consonant c2)).2.term.north = some 'e') ∨
    (∃ t, (stepAlign st (.consonant c1)).2 = .afterLow t connEastE connWestE ∧
      ((stepAlign (.afterLow t connEastE connWestE) (.consonant c2)).1.map fun g => g.east)
        = [some 'e'] ∧
      (stepAlign (.afterLow t connEastE connWestE) (.consonant c2)).2.term.west = some 'e')) ∧
    ((transcribe ['m', 'n']).glyphs.map fun g => (g.south, g.north))
      = [(some 'e', none), (none, some 'e')] := by
  refine ⟨?_, by decide⟩
  cases st with
  | beforeHigh t =>
    exact Or.inl ⟨_, rfl, by simp [stepAlign, mergeConn, connSouthE, connNorthE, AlignState.term],
      by simp [stepAlign, mergeConn, connSouthE, connNorthE, AlignState.term]⟩
  | high t vc cc =>
    exact Or.inl ⟨_, rfl, by simp [stepAlign, mergeConn, connSouthE, connNorthE, AlignState.term],
      by simp [stepAlign, mergeConn, connSouthE, connNorthE, AlignState.term]⟩
  | afterHigh t f s =>
    exact Or.inr ⟨_, rfl, by simp [stepAlign, mergeConn, connEastE, connWestE, AlignState.term],
      by simp [stepAlign, mergeConn, connEastE, connWestE, AlignState.term]⟩
  | low t vc cc =>
    exact Or.inr ⟨_, rfl, by simp [stepAlign, mergeConn, connEastE, connWestE, AlignState.term],
      by simp [stepAlign, mergeConn, connEastE, connWestE, AlignState.term]⟩
  | afterLow t f s =>
    exact Or.inl ⟨_, rfl, by simp [stepAlign, mergeConn, connSouthE, connNorthE, AlignState.term],
      by simp [stepAlign, mergeConn, connSouthE, connNorthE, AlignState.term]⟩

/-- C6 counterexample: the state reached after a single consonant `m` is an
`afterHigh` state whose term carries no pending west or north attachment, yet
a space still advances the column from 0 to 1; end to end, `"m a"` places the
second word's glyph one column over. -/
theorem space_advance_without_pending :
    alignStateAfter [.consonant "m"] =
      .afterHigh { x := 0, y := 0, empty := false, center := some "m" }
        connSouthE connNorthE ∧
    (alignStateAfter [.consonant "m"]).term.west = none ∧
    (alignStateAfter [.consonant "m"]).term.north = none ∧
    (alignStateAfter [.consonant "m"]).term.x = 0 ∧
    (stepAlign (alignStateAfter [.consonant "m"]) .space).2.term.x = 1 ∧
    ((transcribe ['m', ' ', 'a']).glyphs.map fun g => (g.x, g.y)) = [(0, 0), (1, 0)] := by
  decide

/-- C6 amended: the conditional column advance on a space applies in the
`high` state only — there the column advances (and a placeholder `m` hub is
emitted) exactly when the term has a pending west or north attachment, and
otherwise the connectors are dropped with no advance; `afterHigh` and
`afterLow` always advance one column on a space, `beforeHigh` and `low`
never do. -/
theorem space_policy_amended (term : Glyph) (vc cc fvc svc : Conn) :
    (stepAlign (.high term vc cc) .space).2.term.x =
      (if term.west.isSome || term.north.isSome then term.x + 1 else term.x) ∧
    ((stepAlign (.high term vc cc) .space).1.map fun g => g.center) =
      (if term.west.isSome || term.north.isSome then [some "m"] else []) ∧
    (stepAlign (.afterHigh term fvc svc) .space).2.term.x = term.x + 1 ∧
    (stepAlign (.afterLow term fvc svc) .space).2.term.x = term.x + 1 ∧
    (stepAlign (.beforeHigh term) .space).2.term.x = term.x ∧
    (stepAlign (.low term vc cc) .space).2.term.x = term.x := by
    refine ⟨?_, ?_, rfl, rfl, rfl, rfl⟩ <;>
      simp only [stepAlign] <;> split <;> simp [AlignState.term]

/-- C7: a newline always sends the aligner to `beforeHigh` with the column
reset to 0 and the row advanced by 2, except from the two Low states, where
it advances by 1. -/
theorem newline_policy (st : AlignState) :
    (stepAlign st .newline).2.kind = .beforeHigh ∧
    (stepAlign st .newline).2.term.x = 0 ∧
    (stepAlign st .newline).2.term.y =
      st.term.y + (if st.kind.isLow then 1 else 2) := by
  cases st <;>
    refine ⟨?_, ?_, ?_⟩ <;>
    simp only [stepAlign] <;>
    (try split) <;>
    simp_all [AlignState.kind, AlignState.term, AKind.isLow]

end Emone

namespace Emone

/-! ## Idempotence of the embellisher -/

/-- The merge condition of the east/west rewrite: the next slot mirrors the
east attachment and the combined name is in the vocabulary. -/
def mergeableEast (g next : Glyph) : Bool :=
  match g.east with
  | some v => next.west == some v &&
      vowelGlyphs.contains (simpleName v "east" (ioRight g) ++ "-" ++ ioLeft next)
  | none => false

/-- The merge condition of the south/north rewrite. -/
def mergeableSouth (g next : Glyph) : Bool :=
  match g.south with
  | some v => next.north == some v &&
      vowelGlyphs.contains (simpleName v "south" (ioRight g) ++ "-" ++ ioLeft next)
  | none => false

/-- Every populated compass attachment of the glyph already carries its simple
(non-combined) stroke name. -/
def dirStrokesPresent (g : Glyph) : Bool :=
  (match g.west with
   | some v => g.strokes.contains (simpleName v "west" (ioLeft g))
   | none => true) &&
  (match g.north with
   | some v => g.strokes.contains (simpleName v "north" (ioLeft g))
   | none => true) &&
  (match g.east with
   | some v => g.strokes.contains (simpleName v "east" (ioRight g))
   | none => true) &&
  (match g.south with
   | some v => g.strokes.contains (simpleName v "south" (ioRight g))
   | none => true)

/-- No consecutive pair of the sequence (nor the final glyph against the
void successor) admits an east/west or south/north combined-name merge:
the "no resolvable merges left" condition of the idempotence claim. -/
def noResolvableMerges : List Glyph → Bool
  | [] => true
  | [g] => !mergeableEast g emptyGlyph && !mergeableSouth g emptyGlyph
  | g :: g2 :: rest =>
    !mergeableEast g g2 && !mergeableSouth g g2 && noResolvableMerges (g2 :: rest)

/-- The chain condition under which the directional pass is the identity:
every glyph's simple stroke names are present and no merge is resolvable. -/
def embelishedChain (g : Glyph) : List Glyph → Bool
  | [] => dirStrokesPresent g && !mergeableEast g emptyGlyph && !mergeableSouth g emptyGlyph
  | g2 :: rest => dirStrokesPresent g && !mergeableEast g g2 && !mergeableSouth g g2 &&
      embelishedChain g2 rest

/-- A glyph sequence that is already fully embellished: no empty slots, every
center's features already merged into the strokes, every directional
attachment's simple stroke name already present, and no resolvable merges. -/
def embelished (gs : List Glyph) : Bool :=
  (gs.all fun g => !g.empty && decide (addStrokes g (centerFeatures g) = g)) &&
  (match gs with
   | [] => true
   | g :: rest => embelishedChain g rest)

theorem addStroke_of_contains (g : Glyph) (s : String)
    (h : g.strokes.contains s = true) : addStroke g s = g := by
  unfold addStroke
  rw [h]
  simp

theorem resolveEastPair_noop (g n : Glyph) (r nl : String)
    (hcond : ∀ v, g.east = some v →
      (n.west == some v && vowelGlyphs.contains (simpleName v "east" r ++ "-" ++ nl)) = false)
    (hp : ∀ v, g.east = some v → g.strokes.contains (simpleName v "east" r) = true) :
    resolveEastPair g n r nl = (g, n) := by
  unfold resolveEastPair
  rcases hge : g.east with _ | v
  · rfl
  · simp only [hcond v hge]
    simp [addStroke_of_contains _ _ (hp v hge)]

theorem resolveSouthPair_noop (g n : Glyph) (r nl : String)
    (hcond : ∀ v, g.south = some v →
      (n.north == some v && vowelGlyphs.contains (simpleName v "south" r ++ "-" ++ nl)) = false)
    (hp : ∀ v, g.south = some v → g.strokes.contains (simpleName v "south" r) = true) :
    resolveSouthPair g n r nl = (g, n) := by
  unfold resolveSouthPair
  rcases hgs : g.south with _ | v
  · rfl
  · simp only [hcond v hgs]
    simp [addStroke_of_contains _ _ (hp v hgs)]

theorem resolveDirs_noop (g n : Glyph)
    (hd : dirStrokesPresent g = true)
    (he : mergeableEast g n = false)
    (hs : mergeableSouth g n = false) :
    resolveDirs g n = (g, n) := by
  unfold dirStrokesPresent at hd
  rw [Bool.and_eq_true, Bool.and_eq_true, Bool.and_eq_true] at hd
  obtain ⟨⟨⟨hw, hn⟩, heast⟩, hsouth⟩ := hd
  simp only [resolveDirs]
  have hg1 : (match g.west with
      | some v => addStroke g (simpleName v "west" (ioLeft g))
      | none => g) = g := by
    rcases hgw : g.west with _ | v
    · rfl
    · rw [hgw] at hw
      exact addStroke_of_contains _ _ hw
  rw [hg1]
  have hg2 : (match g.north with
      | some v => addStroke g (simpleName v "north" (ioLeft g))
      | none => g) = g := by
    rcases hgn : g.north with _ | v
    · rfl
    · rw [hgn] at hn
      exact addStroke_of_contains _ _ hn
  rw [hg2]
  have hep : resolveEastPair g n (ioRight g) (ioLeft n) = (g, n) := by
    apply resolveEastPair_noop
    · intro v hv
      unfold mergeableEast at he
      rw [hv] at he
      exact he
    · intro v hv
      rw [hv] at heast
      exact heast
  rw [hep]
  apply resolveSouthPair_noop
  · intro v hv
    unfold mergeableSouth at hs
    rw [hv] at hs
    exact hs
  · intro v hv
    rw [hv] at hsouth
    exact hsouth

theorem embelishGo_noop (l : List Glyph) : ∀ g : Glyph, embelishedChain g l = true →
    embelishGo g l = g :: l := by
  induction l with
  | nil =>
    intro g h
    unfold embelishedChain at h
    rw [Bool.and_eq_true, Bool.and_eq_true] at h
    obtain ⟨⟨hd, he⟩, hs⟩ := h
    rw [Bool.not_eq_true'] at he hs
    show [(resolveDirs g emptyGlyph).1] = [g]
    rw [resolveDirs_noop g emptyGlyph hd he hs]
  | cons g2 rest ih =>
    intro g h
    unfold embelishedChain at h
    rw [Bool.and_eq_true, Bool.and_eq_true, Bool.and_eq_true] at h
    obtain ⟨⟨⟨hd, he⟩, hs⟩, hrest⟩ := h
    rw [Bool.not_eq_true'] at he hs
    show (resolveDirs g g2).1 :: embelishGo (resolveDirs g g2).2 rest = g :: g2 :: rest
    rw [resolveDirs_noop g g2 hd he hs]
    exact congrArg _ (ih g2 hrest)

theorem map_eq_self_of_forall {l : List Glyph} {f : Glyph → Glyph}
    (h : ∀ g ∈ l, f g = g) : l.map f = l := by
  induction l with
  | nil => rfl
  | cons a l ih =>
    rw [List.map_cons, h a (by simp), ih fun g hg => h g (by simp [hg])]

/-- C8 counterexample: the fully transcribed model for `"mnm"` has no empty
slot and no resolvable east/west or south/north merge left (the merge of the
middle hub's east `e` with the last hub's west `e` already consumed the
latter), yet running the embellisher on it again is not a no-op: the middle
glyph's retained east attachment now resolves to the simple name
`e-east-inner` and is added. -/
theorem embelish_not_idempotent :
    ((transcribe ['m', 'n', 'm']).glyphs.all fun g => !g.empty) = true ∧
    noResolvableMerges (transcribe ['m', 'n', 'm']).glyphs = true ∧
    (decide (embelish (transcribe ['m', 'n', 'm']).glyphs
      = (transcribe ['m', 'n', 'm']).glyphs)) = false := by decide

/-- C8 amended: the embellisher is a no-op on sequences that are fully
embellished in the strong sense: no empty slots, every center's features
already merged, no resolvable merges left, and additionally every directional
attachment's simple stroke name already present (a sequence in which a
combined-name merge consumed a neighbour's attachment fails this last
condition and is not a fixed point). -/
theorem embelish_idempotent_amended (gs : List Glyph) (h : embelished gs = true) :
    embelish gs = gs := by
  unfold embelished at h
  rw [Bool.and_eq_true] at h
  obtain ⟨hall, hchain⟩ := h
  have hfilter : (gs.filter fun g => !g.empty) = gs := by
    rw [List.filter_eq_self]
    intro a ha
    have h1 := List.all_eq_true.mp hall a ha
    rw [Bool.and_eq_true] at h1
    exact h1.1
  have hmap : (gs.map fun g => addStrokes g (centerFeatures g)) = gs := by
    apply map_eq_self_of_forall
    intro g hg
    have h1 := List.all_eq_true.mp hall g hg
    rw [Bool.and_eq_true] at h1
    exact of_decide_eq_true h1.2
  unfold embelish
  rw [hfilter, hmap]
  cases gs with
  | nil => rfl
  | cons g rest => exact embelishGo_noop rest g hchain

/-- Witness for the amended C8 at the already-embellished model of `"m"`. -/
theorem embelish_idempotent_amended_witness :
    embelished (transcribe ['m']).glyphs = true ∧
    embelish (transcribe ['m']).glyphs = (transcribe ['m']).glyphs :=
  ⟨by decide, embelish_idempotent_amended _ (by decide)⟩

end Emone

namespace Emone

/-! ## Vowel symbols emitted by the lexer -/

/-- The letters that can actually appear as vowel symbols: the six of the
spec's inventory plus the glide `w` (emitted after a consonant or via the
`q` lookahead). -/
def vowelInventory : List Char := ['e', 'i', 'y', 'a', 'o', 'u', 'w']

/-- Every vowel or diphthong symbol of the phoneme is in `vowelInventory`. -/
def vowelSymbolsOK : Phoneme → Bool
  | .vowel v => vowelInventory.contains v
  | .diphthong a b => vowelInventory.contains a && vowelInventory.contains b
  | _ => true

/-- State invariant of the lexer: a held diphthong head is in the inventory. -/
def lexStateVowelsOK : LexState → Bool
  | .maybeDiphthong f => vowelInventory.contains f
  | _ => true

theorem fcChar_vowels (c : Char) :
    (fcChar c).1.all vowelSymbolsOK = true ∧ lexStateVowelsOK (fcChar c).2 = true := by
  unfold fcChar
  split <;> exact ⟨rfl, rfl⟩

theorem fvChar_vowels (c : Char) :
    (fvChar c).1.all vowelSymbolsOK = true ∧ lexStateVowelsOK (fvChar c).2 = true := by
  unfold fvChar
  split
  · exact ⟨rfl, rfl⟩
  · split
    · exact ⟨rfl, rfl⟩
    · exact fcChar_vowels c

theorem mdChar_vowels (f c : Char) (hf : vowelInventory.contains f = true) :
    (mdChar f c).1.all vowelSymbolsOK = true ∧ lexStateVowelsOK (mdChar f c).2 = true := by
  have hf' : f ∈ vowelInventory := by simpa using hf
  unfold mdChar
  split
  · refine ⟨?_, rfl⟩
    simp [vowelSymbolsOK, hf']
  · split
    · rename_i h
      refine ⟨?_, rfl⟩
      rcases h with rfl | rfl | rfl | rfl | rfl | rfl | rfl <;>
        simp [vowelSymbolsOK, hf'] <;> decide
    · obtain ⟨h1, h2⟩ := fcChar_vowels c
      refine ⟨?_, h2⟩
      simp [vowelSymbolsOK, hf', h1]

theorem qLookChar_vowels (c : Char) :
    (qLookChar c).1.all vowelSymbolsOK = true ∧ lexStateVowelsOK (qLookChar c).2 = true := by
  unfold qLookChar
  split
  · exact ⟨rfl, rfl⟩
  · obtain ⟨h1, h2⟩ := mdChar_vowels 'w' c (by decide)
    refine ⟨?_, h2⟩
    simp [vowelSymbolsOK, h1]

theorem gkLookChar_vowels (f c : Char) :
    (gkLookChar f c).1.all vowelSymbolsOK = true ∧
    lexStateVowelsOK (gkLookChar f c).2 = true := by
  unfold gkLookChar
  split
  · exact ⟨rfl, rfl⟩
  · obtain ⟨h1, h2⟩ := fvChar_vowels c
    refine ⟨?_, h2⟩
    simp [vowelSymbolsOK, h1]

theorem cLookChar_vowels (c : Char) :
    (cLookChar c).1.all vowelSymbolsOK = true ∧ lexStateVowelsOK (cLookChar c).2 = true := by
  unfold cLookChar
  split
  · exact ⟨rfl, rfl⟩
  · obtain ⟨h1, h2⟩ := fvChar_vowels c
    refine ⟨?_, h2⟩
    simp [vowelSymbolsOK, h1]

theorem nLookChar_vowels (c : Char) :
    (nLookChar c).1.all vowelSymbolsOK = true ∧ lexStateVowelsOK (nLookChar c).2 = true := by
  unfold nLookChar
  split
  · exact ⟨rfl, rfl⟩
  · obtain ⟨h1, h2⟩ := fvChar_vowels c
    refine ⟨?_, h2⟩
    simp [vowelSymbolsOK, h1]

theorem bLookChar_vowels (c : Char) :
    (bLookChar c).1.all vowelSymbolsOK = true ∧ lexStateVowelsOK (bLookChar c).2 = true := by
  unfold bLookChar
  split
  · exact ⟨rfl, rfl⟩
  · obtain ⟨h1, h2⟩ := fvChar_vowels c
    refine ⟨?_, h2⟩
    simp [vowelSymbolsOK, h1]

theorem pLookChar_vowels (c : Char) :
    (pLookChar c).1.all vowelSymbolsOK = true ∧ lexStateVowelsOK (pLookChar c).2 = true := by
  unfold pLookChar
  split
  · exact ⟨rfl, rfl⟩
  · obtain ⟨h1, h2⟩ := fvChar_vowels c
    refine ⟨?_, h2⟩
    simp [vowelSymbolsOK, h1]

theorem tLookChar_vowels (c : Char) :
    (tLookChar c).1.all vowelSymbolsOK = true ∧ lexStateVowelsOK (tLookChar c).2 = true := by
  unfold tLookChar
  split
  · exact ⟨rfl, rfl⟩
  · obtain ⟨h1, h2⟩ := fvChar_vowels c
    refine ⟨?_, h2⟩
    simp [vowelSymbolsOK, h1]

theorem dLookChar_vowels (c : Char) :
    (dLookChar c).1.all vowelSymbolsOK = true ∧ lexStateVowelsOK (dLookChar c).2 = true := by
  unfold dLookChar
  split
  · exact ⟨rfl, rfl⟩
  · obtain ⟨h1, h2⟩ := fvChar_vowels c
    refine ⟨?_, h2⟩
    simp [vowelSymbolsOK, h1]

theorem scLookChar_vowels (c : Char) :
    (scLookChar c).1.all vowelSymbolsOK = true ∧ lexStateVowelsOK (scLookChar c).2 = true := by
  unfold scLookChar
  split
  · exact ⟨rfl, rfl⟩
  · obtain ⟨h1, h2⟩ := fvChar_vowels c
    refine ⟨?_, h2⟩
    simp [vowelSymbolsOK, h1]

theorem sLookChar_vowels (c : Char) :
    (sLookChar c).1.all vowelSymbolsOK = true ∧ lexStateVowelsOK (sLookChar c).2 = true := by
  unfold sLookChar
  split
  · exact ⟨rfl, rfl⟩
  · obtain ⟨h1, h2⟩ := fvChar_vowels c
    refine ⟨?_, h2⟩
    simp [vowelSymbolsOK, h1]

theorem spaceChar_vowels (c : Char) :
    (spaceChar c).1.all vowelSymbolsOK = true ∧ lexStateVowelsOK (spaceChar c).2 = true := by
  unfold spaceChar
  split
  · exact ⟨rfl, rfl⟩
  · exact fcChar_vowels c

theorem lexStepChar_vowels (st : LexState) (c : Char)
    (h : lexStateVowelsOK st = true) :
    (lexStepChar st c).1.all vowelSymbolsOK = true ∧
    lexStateVowelsOK (lexStepChar st c).2 = true := by
  cases st with
  | favorConsonant => exact fcChar_vowels c
  | favorVowel => exact fvChar_vowels c
  | maybeDiphthong f => exact mdChar_vowels f c h
  | space => exact spaceChar_vowels c
  | qLook => exact qLookChar_vowels c
  | gkLook f => exact gkLookChar_vowels f c
  | cLook => exact cLookChar_vowels c
  | nLook => exact nLookChar_vowels c
  | bLook => exact bLookChar_vowels c
  | pLook => exact pLookChar_vowels c
  | tLook => exact tLookChar_vowels c
  | dLook => exact dLookChar_vowels c
  | sLook => exact sLookChar_vowels c
  | scLook => exact scLookChar_vowels c

theorem lexEnd_vowels (st : LexState) (h : lexStateVowelsOK st = true) :
    (lexEnd st).all vowelSymbolsOK = true := by
  cases st with
  | maybeDiphthong f =>
    simp only [lexStateVowelsOK] at h
    have h' : f ∈ vowelInventory := by simpa using h
    simp [lexEnd, vowelSymbolsOK, h']
  | favorConsonant => rfl
  | favorVowel => rfl
  | space => rfl
  | qLook => rfl
  | gkLook f => rfl
  | cLook => rfl
  | nLook => rfl
  | bLook => rfl
  | pLook => rfl
  | tLook => rfl
  | dLook => rfl
  | sLook => rfl
  | scLook => rfl

theorem lexGo_vowels (cs : List Char) : ∀ st : LexState, lexStateVowelsOK st = true →
    (lexGo st cs).all vowelSymbolsOK = true := by
  induction cs with
  | nil => intro st h; exact lexEnd_vowels st h
  | cons c cs ih =>
    intro st h
    obtain ⟨h1, h2⟩ := lexStepChar_vowels st c h
    simp only [lexGo, List.all_append]
    rw [h1, ih _ h2]
    rfl

/-- C9 counterexample: the input `"mw"` makes the lexer emit the Vowel
phoneme `w`, and `w` is not one of the six letters `{e,i,y,a,o,u}`. -/
theorem vowel_w_emitted :
    lex ['m', 'w'] = [.consonant "m", .vowel 'w'] ∧
    (['e', 'i', 'y', 'a', 'o', 'u'].contains 'w') = false := by decide

/-- C9 amended: for every input, every Vowel phoneme's symbol and both
symbols of every Diphthong emitted by the lexer are drawn from
`{e,i,y,a,o,u,w}` — the spec's six vowels plus the glide `w`. -/
theorem lexer_vowel_inventory (text : List Char) :
    ((lex text).all vowelSymbolsOK) = true :=
  lexGo_vowels text .favorConsonant rfl

end Emone
